import Mathlib

/-!
Shallow embedding of `src/kconfig.rs` from the `embuild` repository: a
parser for kconfig-generated `.config` files and the cross-crate
propagation of configuration flags through cargo metadata / environment
variables.

Modelling conventions:
* Rust `String` / `&str` are Lean `String`.
* `str::trim`, `str::to_lowercase` and single-character
  `str::starts_with` / `str::split` are modelled over the underlying
  character list (`rustTrim`, `rustLower`, `startsWithChar`,
  `splitChar`), keeping Rust's behaviour on the inputs the claims
  exercise.
* `str::split(c)` (a single-char pattern) is modelled by `splitChar c`,
  defined below over the character list exactly as Rust's splitter
  behaves: it yields the (possibly empty) segments between occurrences
  of `c`, and yields `[""]` on the empty string.
* `Vec::join(":")` is modelled by `joinChar ':'`.
* File input is modelled as `Option (List String)`: `none` means the
  file could not be opened, `some lines` gives the decoded lines.
* The cargo side effects are modelled by their traces:
  `cargo::set_rustc_cfg` calls become the returned list of emitted flag
  names (in emission order) and `cargo::set_metadata` becomes the
  returned `(key, value)` pair.
* `std::env::var` is modelled by a lookup function `String → Option String`.
-/

/-- Kconfig tristate, from `enum Tristate` in `kconfig.rs`. -/
inductive Tristate where
  | True
  | False
  | Module
  | NotSet
deriving DecidableEq

/-- Config value, from `enum Value` in `kconfig.rs`
(`tristate` models `Value::Tristate`, `str` models `Value::String`). -/
inductive Value where
  | tristate (t : Tristate)
  | str (s : String)
deriving DecidableEq

/-- Rust `str::starts_with(c)` for a single-character pattern. -/
def startsWithChar (c : Char) (s : String) : Bool :=
  match s.data with
  | [] => Bool.false
  | x :: _ => x == c

/-- Rust `str::trim` on the character list: drop whitespace from both
ends (Rust trims Unicode `White_Space`; `Char.isWhitespace` covers the
ASCII subset the config format uses). -/
def trimData (l : List Char) : List Char :=
  ((l.dropWhile Char.isWhitespace).reverse.dropWhile Char.isWhitespace).reverse

/-- Rust `str::trim`. -/
def rustTrim (s : String) : String :=
  ⟨trimData s.data⟩

/-- Rust `str::to_lowercase` (the claims only exercise characters where
per-`Char` lowercasing agrees with Rust's Unicode lowercasing). -/
def rustLower (s : String) : String :=
  ⟨s.data.map Char.toLower⟩

/-- `Value::parse` from `kconfig.rs`: a string beginning with a double
quote is kept verbatim as a string value; `y`/`n`/`m` are the tristate
literals; anything else is unparsable. -/
def Value.parse (s : String) : Option Value :=
  if startsWithChar '\"' s then some (.str s)
  else if s = "y" then some (.tristate .True)
  else if s = "n" then some (.tristate .False)
  else if s = "m" then some (.tristate .Module)
  else none

/-- Splitter on a single character over a character list: `acc` holds the
current segment reversed.  Models the behaviour of Rust's
`str::split(c)` iterator. -/
def splitCharAux (c : Char) : List Char → List Char → List (List Char)
  | [], acc => [acc.reverse]
  | x :: xs, acc =>
    if x = c then acc.reverse :: splitCharAux c xs []
    else splitCharAux c xs (x :: acc)

/-- Rust `s.split(c)`, collected into a list. -/
def splitChar (c : Char) (s : String) : List String :=
  (splitCharAux c s.data []).map fun l => ⟨l⟩

/-- Join over character lists, separator between consecutive elements. -/
def joinCharData (c : Char) : List (List Char) → List Char
  | [] => []
  | [x] => x
  | x :: y :: xs => x ++ c :: joinCharData c (y :: xs)

/-- Rust `Vec<String>::join(c)` for a single-character separator. -/
def joinChar (c : Char) (l : List String) : String :=
  ⟨joinCharData c (l.map String.data)⟩

/-- One line of the body of `load` in `kconfig.rs`: trim the line, drop
comments, split on `=`, take the segment after the first `=` (up to the
second `=` if any), trim it and parse it as a value. -/
def processLine (line : String) : Option (String × Value) :=
  let l := rustTrim line
  if startsWithChar '#' l then none
  else
    match splitChar '=' l with
    | key :: v :: _ => (Value.parse (rustTrim v)).map fun value => (key, value)
    | _ => none

/-- Failure of `load`: the config file cannot be opened. -/
inductive LoadError where
  | ioError
deriving DecidableEq

/-- `load` from `kconfig.rs`: fails iff the file cannot be opened,
otherwise yields the parsed pairs of every line that survives
`processLine`, in file order. -/
def load (file : Option (List String)) : Except LoadError (List (String × Value)) :=
  match file with
  | none => .error .ioError
  | some lines => .ok (lines.filterMap processLine)

/-- `struct CfgArgs(Vec<(String, Value)>)` from `kconfig.rs`. -/
structure CfgArgs where
  pairs : List (String × Value)
deriving DecidableEq

/-- The fixed metadata key constant `VAR_CFG_ARGS_KEY`. -/
def VAR_CFG_ARGS_KEY : String := "EMBUILD_CFG_ARGS"

/-- `CfgArgs::gather` from `kconfig.rs`: for each pair whose value is
`Tristate(True)`, emit `lowercase(prefix) ++ "_" ++ lowercase(key)`. -/
def CfgArgs.gather (c : CfgArgs) (pfx : String) : List String :=
  c.pairs.filterMap fun p =>
    match p.2 with
    | .tristate .True => some (rustLower pfx ++ "_" ++ rustLower p.1)
    | _ => none

/-- `CfgArgs::output` from `kconfig.rs`; the returned list is the trace
of `cargo::set_rustc_cfg` emissions, in order. -/
def CfgArgs.output (c : CfgArgs) (pfx : String) : List String :=
  c.gather pfx

/-- `CfgArgs::propagate` from `kconfig.rs`; the returned pair is the
`(key, value)` written through `cargo::set_metadata`. -/
def CfgArgs.propagate (c : CfgArgs) (pfx : String) : String × String :=
  (VAR_CFG_ARGS_KEY, joinChar ':' (c.gather pfx))

/-- The environment variable read by `output_propagated`:
`DEP_<lib_name>_EMBUILD_CFG_ARGS`. -/
def envVarName (libName : String) : String :=
  "DEP_" ++ libName ++ "_" ++ VAR_CFG_ARGS_KEY

/-- Failure of `std::env::var`: the variable is absent. -/
inductive VarError where
  | notPresent
deriving DecidableEq

/-- `CfgArgs::output_propagated` from `kconfig.rs`: read the dependency's
propagated metadata from the environment (an absent variable is a
recoverable error, returned before anything is emitted), split it on `:`
and emit each segment as a cfg flag.  The second component is the trace
of `cargo::set_rustc_cfg` emissions, in order. -/
def CfgArgs.output_propagated (env : String → Option String) (libName : String) :
    Except VarError Unit × List String :=
  match env (envVarName libName) with
  | none => (.error .notPresent, [])
  | some v => (.ok (), splitChar ':' v)

/-- Decidable equality of `Except` results, so that concrete runs of
`load` can be checked by evaluation. -/
instance {ε α : Type} [DecidableEq ε] [DecidableEq α] : DecidableEq (Except ε α)
  | .error a, .error b => decidable_of_iff (a = b) (by simp)
  | .error _, .ok _ => isFalse fun h => Except.noConfusion h
  | .ok _, .error _ => isFalse fun h => Except.noConfusion h
  | .ok a, .ok b => decidable_of_iff (a = b) (by simp)

example : Value.parse "y" = some (.tristate .True) := by decide
example : Value.parse "\"a=b\"" = some (.str "\"a=b\"") := by decide
example : splitChar '=' "K=\"a=b\"" = ["K", "\"a", "b\""] := by decide
example : splitChar ':' "" = [""] := by decide
example : processLine " D = y " = some ("D ", .tristate .True) := by decide
example : processLine "# comment" = none := by decide
example : processLine "garbage" = none := by decide
example : processLine "=y" = some ("", .tristate .True) := by decide
example : processLine "K=\"a=b\"" = some ("K", .str "\"a") := by decide
example : (CfgArgs.mk [("Bar", .tristate .True), ("Baz", .tristate .False),
    ("Qux", .tristate .True)]).gather "FOO" = ["foo_bar", "foo_qux"] := by decide
example : joinChar ':' [] = "" := by decide
example : joinChar ':' ["a", "b"] = "a:b" := by decide

/-! ### Properties of the `:`-join / split round trip -/

theorem splitCharAux_of_not_mem (c : Char) {xs : List Char} (acc : List Char)
    (h : c ∉ xs) : splitCharAux c xs acc = [acc.reverse ++ xs] := by
  induction xs generalizing acc with
  | nil => simp [splitCharAux]
  | cons x xs ih =>
    simp only [List.mem_cons, not_or] at h
    simp only [splitCharAux, if_neg (Ne.symm h.1)]
    rw [ih _ h.2]
    simp

theorem splitCharAux_append (c : Char) {xs : List Char} (rest acc : List Char)
    (h : c ∉ xs) :
    splitCharAux c (xs ++ c :: rest) acc =
      (acc.reverse ++ xs) :: splitCharAux c rest [] := by
  induction xs generalizing acc with
  | nil => simp [splitCharAux]
  | cons x xs ih =>
    simp only [List.mem_cons, not_or] at h
    simp only [List.cons_append, splitCharAux, List.append_eq,
      if_neg (Ne.symm h.1)]
    rw [ih _ h.2]
    simp

theorem splitCharAux_joinCharData (c : Char) (ls : List (List Char))
    (hne : ls ≠ []) (h : ∀ l ∈ ls, c ∉ l) :
    splitCharAux c (joinCharData c ls) [] = ls := by
  induction ls with
  | nil => exact absurd rfl hne
  | cons x ls ih =>
    cases ls with
    | nil =>
      simpa [joinCharData] using splitCharAux_of_not_mem c [] (h x (by simp))
    | cons y ls =>
      simp only [joinCharData]
      rw [splitCharAux_append c _ [] (h x (by simp))]
      simp only [List.reverse_nil, List.nil_append, List.cons.injEq, true_and]
      exact ih (by simp) fun l hl => h l (List.mem_cons_of_mem _ hl)

theorem splitChar_joinChar (c : Char) (l : List String) (hne : l ≠ [])
    (h : ∀ s ∈ l, c ∉ s.data) :
    splitChar c (joinChar c l) = l := by
  unfold splitChar joinChar
  rw [show (⟨joinCharData c (l.map String.data)⟩ : String).data
        = joinCharData c (l.map String.data) from rfl]
  rw [splitCharAux_joinCharData c _ (by simpa using hne)
        (by intro d hd; obtain ⟨s, hs, rfl⟩ := List.mem_map.mp hd; exact h s hs)]
  have hid : (fun d : List Char => (⟨d⟩ : String)) ∘ String.data = id := by
    funext s
    rfl
  rw [List.map_map, hid, List.map_id]

/-! ### Claim theorems -/

/-- C2: for every `CfgArgs` and prefix, `gather` returns the flag names
of exactly those pairs whose value is `Tristate(True)`, each name being
`lowercase(prefix) ++ "_" ++ lowercase(key)`, in source order and
keeping duplicates; on the pairs `[(Bar, True), (Baz, False),
(Qux, True)]` with prefix `FOO` it returns `["foo_bar", "foo_qux"]` in
that order. -/
theorem gather_filters_true_pairs :
    (∀ (c : CfgArgs) (pfx : String),
      c.gather pfx =
        (c.pairs.filter fun p => p.2 == Value.tristate Tristate.True).map
          fun p => rustLower pfx ++ "_" ++ rustLower p.1) ∧
    (CfgArgs.mk [("Bar", .tristate .True), ("Baz", .tristate .False),
        ("Qux", .tristate .True)]).gather "FOO" = ["foo_bar", "foo_qux"] := by
  refine ⟨fun c pfx => ?_, by decide⟩
  obtain ⟨ps⟩ := c
  induction ps with
  | nil => rfl
  | cons p ps ih =>
    obtain ⟨k, v⟩ := p
    cases v with
    | tristate t =>
      cases t <;>
        simpa [CfgArgs.gather, List.filterMap_cons, List.filter_cons] using ih
    | str s =>
      simpa [CfgArgs.gather, List.filterMap_cons, List.filter_cons] using ih

/-- C3: `Value::parse` returns `String(raw)` unchanged when `raw` begins
with a double quote, the matching tristate for `y`/`n`/`m`, no value for
every other string, and never `Tristate(NotSet)`. -/
theorem value_parse_cases (s : String) :
    (startsWithChar '\"' s = Bool.true → Value.parse s = some (.str s)) ∧
    Value.parse "y" = some (.tristate .True) ∧
    Value.parse "n" = some (.tristate .False) ∧
    Value.parse "m" = some (.tristate .Module) ∧
    (startsWithChar '\"' s = Bool.false → s ≠ "y" → s ≠ "n" → s ≠ "m" →
      Value.parse s = none) ∧
    ∀ v, Value.parse s = some v → v ≠ .tristate .NotSet := by
  refine ⟨?_, by decide, by decide, by decide, ?_, ?_⟩
  · intro h
    simp [Value.parse, h]
  · intro h h1 h2 h3
    simp [Value.parse, h, h1, h2, h3]
  · intro v hv
    unfold Value.parse at hv
    split_ifs at hv
    all_goals try injection hv with hv
    all_goals try subst hv
    all_goals simp_all

/-- Witness for C3 at concrete inputs. -/
theorem value_parse_cases_witness :
    Value.parse "\"abc\"" = some (.str "\"abc\"") ∧
    Value.parse "q" = none ∧
    ¬ Value.parse "m" = some (.tristate .NotSet) :=
  ⟨(value_parse_cases "\"abc\"").1 (by decide),
   (value_parse_cases "q").2.2.2.2.1 (by decide) (by decide) (by decide)
     (by decide),
   fun h => (value_parse_cases "m").2.2.2.2.2 _ h rfl⟩

theorem splitChar_of_not_mem (c : Char) (s : String) (h : c ∉ s.data) :
    splitChar c s = [s] := by
  unfold splitChar
  rw [splitCharAux_of_not_mem c [] h]
  rfl

theorem splitChar_cons_of_data (c : Char) (a b s : String) (ha : c ∉ a.data)
    (hs : s.data = a.data ++ c :: b.data) :
    splitChar c s = a :: splitChar c b := by
  unfold splitChar
  rw [hs, splitCharAux_append c _ [] ha]
  rfl

/-- C4 counterexample: on the line `K="a=b"` the loader parses as the
value only the text between the first and the second `=` (here the
fragment `"a`), not everything after the first `=`. -/
theorem value_segment_counterexample :
    processLine "K=\"a=b\"" = some ("K", .str "\"a") ∧
    ¬ processLine "K=\"a=b\"" = some ("K", .str "\"a=b\"") :=
  ⟨by decide, by decide⟩

/-- C4 amended: for every non-comment line containing at least one `=`
(its trimmed text splits on `=` into a key segment, a value segment,
and any number of further segments), the loader takes as key the text
before the first `=` and attempts a value parse on the trimmed segment
between the first and the second `=` — the whole remainder only when
the line contains exactly one `=`; everything after a second `=` is
discarded.  The second conjunct pins the segments down: whenever the
key and value parts are `=`-free, the split of `k=v=r` is `k`, then
`v`, then the split of the arbitrary tail `r`. -/
theorem value_segment_of_split :
    (∀ (line k v : String) (rest : List String),
      startsWithChar '#' (rustTrim line) = Bool.false →
      splitChar '=' (rustTrim line) = k :: v :: rest →
      processLine line = (Value.parse (rustTrim v)).map fun value => (k, value)) ∧
    (∀ k v r : String, '=' ∉ k.data → '=' ∉ v.data →
      splitChar '=' (k ++ "=" ++ v ++ "=" ++ r) = k :: v :: splitChar '=' r) := by
  constructor
  · intro line k v rest hcomment hsplit
    simp [processLine, hcomment, hsplit]
  · intro k v r hk hv
    rw [splitChar_cons_of_data '=' k (v ++ "=" ++ r) _ hk
          (by simp [String.data_append, List.append_assoc]),
        splitChar_cons_of_data '=' v r _ hv
          (by simp [String.data_append, List.append_assoc])]

/-- Witness for the amended C4: a quoted value containing two further
`=` characters, parsed from the segment between the first and second
`=` only. -/
theorem value_segment_of_split_witness :
    processLine "K=\"a=b=c\"" =
      (Value.parse (rustTrim "\"a")).map (fun value => ("K", value)) ∧
    splitChar '=' ("K" ++ "=" ++ "\"a" ++ "=" ++ "b=c\"") =
      "K" :: "\"a" :: splitChar '=' "b=c\"" :=
  ⟨value_segment_of_split.1 "K=\"a=b=c\"" "K" "\"a" ["b", "c\""]
      (by decide) (by decide),
   value_segment_of_split.2 "K" "\"a" "b=c\"" (by decide) (by decide)⟩

/-- C5 counterexample: loading the six example lines yields the four
pairs in order, but the key of the last pair is `"D "` with a trailing
space — the loader trims the whole line and the value, never the key. -/
theorem load_example_counterexample :
    load (some ["A=y", "# comment", "B=n", "garbage", "C=m", " D = y "]) =
      .ok [("A", .tristate .True), ("B", .tristate .False),
           ("C", .tristate .Module), ("D ", .tristate .True)] ∧
    ¬ load (some ["A=y", "# comment", "B=n", "garbage", "C=m", " D = y "]) =
      .ok [("A", .tristate .True), ("B", .tristate .False),
           ("C", .tristate .Module), ("D", .tristate .True)] :=
  ⟨by decide, by decide⟩

/-- C5 amended: loading a file whose lines are `A=y`, `# comment`,
`B=n`, `garbage`, `C=m`, ` D = y ` yields exactly the pairs
`[("A", True), ("B", False), ("C", Module), ("D ", True)]` in that
order; the key of the last pair is `"D "`, keeping the space that stood
before the `=`. -/
theorem load_example_lines :
    load (some ["A=y", "# comment", "B=n", "garbage", "C=m", " D = y "]) =
      .ok [("A", .tristate .True), ("B", .tristate .False),
           ("C", .tristate .Module), ("D ", .tristate .True)] := by
  decide

/-- C6: when the environment variable `DEP_<lib>_EMBUILD_CFG_ARGS` is
absent, `output_propagated` returns the recoverable not-found error and
emits no flag; being a total function of the environment, it cannot
crash. -/
theorem output_propagated_missing_env (env : String → Option String)
    (lib : String) (h : env (envVarName lib) = none) :
    CfgArgs.output_propagated env lib = (.error .notPresent, []) := by
  unfold CfgArgs.output_propagated
  rw [h]

/-- Witness for C6: an empty environment. -/
theorem output_propagated_missing_env_witness :
    CfgArgs.output_propagated (fun _ => none) "esp_idf" =
      (.error .notPresent, []) :=
  output_propagated_missing_env (fun _ => none) "esp_idf" rfl

/-- C7: `output` and `propagate` cannot fail and emit / publish their
whole flag list; `output_propagated` performs its single fallible step,
the environment read, before any flag is emitted: on a missing variable
it emits nothing, and on a present variable it emits the whole split
list. -/
theorem emission_atomicity (c : CfgArgs) (pfx : String)
    (env : String → Option String) (lib : String) :
    c.output pfx = c.gather pfx ∧
    c.propagate pfx = (VAR_CFG_ARGS_KEY, joinChar ':' (c.gather pfx)) ∧
    (env (envVarName lib) = none →
      CfgArgs.output_propagated env lib = (.error .notPresent, [])) ∧
    (∀ v, env (envVarName lib) = some v →
      CfgArgs.output_propagated env lib = (.ok (), splitChar ':' v)) := by
  refine ⟨rfl, rfl, fun h => ?_, fun v h => ?_⟩
  · unfold CfgArgs.output_propagated
    rw [h]
  · unfold CfgArgs.output_propagated
    rw [h]

/-- Witness for C7 at a concrete configuration and environment. -/
theorem emission_atomicity_witness :
    CfgArgs.output_propagated (fun _ => some "a:b") "dep" =
      (.ok (), splitChar ':' "a:b") :=
  (emission_atomicity (CfgArgs.mk []) "p" (fun _ => some "a:b") "dep").2.2.2
    "a:b" rfl

/-- C8: `load` fails with the I/O error exactly when the file cannot be
opened; once lines are available no line causes an error: comment lines,
blank lines, lines without `=`, and lines whose value fails to parse are
silently dropped, and the surviving pairs are yielded in file order. -/
theorem load_leniency :
    load none = .error .ioError ∧
    (∀ ls, load (some ls) = .ok (ls.filterMap processLine)) ∧
    (∀ l, startsWithChar '#' (rustTrim l) = Bool.true → processLine l = none) ∧
    (∀ l, rustTrim l = "" → processLine l = none) ∧
    (∀ l, '=' ∉ (rustTrim l).data → processLine l = none) ∧
    (∀ l k v rest, splitChar '=' (rustTrim l) = k :: v :: rest →
      Value.parse (rustTrim v) = none → processLine l = none) := by
  refine ⟨rfl, fun ls => rfl, fun l h => ?_, fun l h => ?_, fun l h => ?_,
    fun l k v rest hsplit hparse => ?_⟩
  · simp [processLine, h]
  · simp only [processLine, h]
    decide
  · by_cases hc : startsWithChar '#' (rustTrim l) = Bool.true
    · simp [processLine, hc]
    · simp only [Bool.not_eq_true] at hc
      simp [processLine, hc, splitChar_of_not_mem '=' _ h]
  · by_cases hc : startsWithChar '#' (rustTrim l) = Bool.true
    · simp [processLine, hc]
    · simp only [Bool.not_eq_true] at hc
      simp [processLine, hc, hsplit, hparse]

/-- Witness for C8: each leniency case at a concrete line. -/
theorem load_leniency_witness :
    processLine "# note" = none ∧
    processLine "   " = none ∧
    processLine "garbage2" = none ∧
    processLine "K=zz" = none :=
  ⟨load_leniency.2.2.1 "# note" (by decide),
   load_leniency.2.2.2.1 "   " (by decide),
   load_leniency.2.2.2.2.1 "garbage2" (by decide),
   load_leniency.2.2.2.2.2 "K=zz" "K" "zz" [] (by decide) (by decide)⟩

/-- C9: when `gather(prefix)` is empty, `propagate` publishes the empty
string under `EMBUILD_CFG_ARGS`, and `output_propagated` reading an
empty-string value emits exactly one flag whose name is the empty
string. -/
theorem empty_propagation_edge (c : CfgArgs) (pfx : String)
    (h : c.gather pfx = []) (env : String → Option String) (lib : String)
    (henv : env (envVarName lib) = some "") :
    c.propagate pfx = (VAR_CFG_ARGS_KEY, "") ∧
    CfgArgs.output_propagated env lib = (.ok (), [""]) := by
  constructor
  · unfold CfgArgs.propagate
    rw [h]
    rfl
  · unfold CfgArgs.output_propagated
    rw [henv]
    rfl

/-- Witness for C9: the empty configuration set. -/
theorem empty_propagation_edge_witness :
    (CfgArgs.mk []).propagate "p" = (VAR_CFG_ARGS_KEY, "") ∧
    CfgArgs.output_propagated (fun _ => some "") "dep" = (.ok (), [""]) :=
  empty_propagation_edge (CfgArgs.mk []) "p" rfl (fun _ => some "") "dep" rfl

/-- C10: a line whose trimmed text is `=y` loads as the pair
`("", Tristate True)`, and `gather` on such a pair yields the flag name
`lowercase(prefix)` followed by a single trailing underscore. -/
theorem empty_key_accepted (l : String) (h : rustTrim l = "=y") (pfx : String) :
    processLine l = some ("", .tristate .True) ∧
    (CfgArgs.mk [("", .tristate .True)]).gather pfx = [rustLower pfx ++ "_"] := by
  constructor
  · simp only [processLine, h]
    decide
  · show [rustLower pfx ++ "_" ++ rustLower ""] = [rustLower pfx ++ "_"]
    rw [show rustLower "" = "" from rfl]
    rw [show (rustLower pfx ++ "_" ++ "") = rustLower pfx ++ "_" by
      apply congrArg String.mk
      simp [String.data_append]]

/-- Witness for C10 at the literal line `=y` and prefix `FOO`. -/
theorem empty_key_accepted_witness :
    processLine "=y" = some ("", .tristate .True) ∧
    (CfgArgs.mk [("", .tristate .True)]).gather "FOO" = [rustLower "FOO" ++ "_"] :=
  empty_key_accepted "=y" (by decide) "FOO"

/-- C1 counterexample: with no `Tristate(True)` pair, `gather` is `[]`
and its flag names trivially contain no `:`; `propagate` publishes the
empty string, yet `output_propagated` reading exactly that string emits
`[""]` — one empty flag name — and not the empty list. -/
theorem propagation_roundtrip_counterexample :
    (CfgArgs.mk []).gather "p" = [] ∧
    ((CfgArgs.mk []).propagate "p").2 = "" ∧
    (CfgArgs.output_propagated
        (fun n => if n = envVarName "dep" then
          some (((CfgArgs.mk []).propagate "p").2) else none)
        "dep").2 = [""] ∧
    ¬ (CfgArgs.output_propagated
        (fun n => if n = envVarName "dep" then
          some (((CfgArgs.mk []).propagate "p").2) else none)
        "dep").2 = (CfgArgs.mk []).gather "p" :=
  ⟨rfl, rfl, by decide, by decide⟩

/-- C1 amended: if `output_propagated` reads exactly the string that
`propagate(prefix)` published and the derived flag names contain no `:`,
then the emitted flag list equals `gather(prefix)` whenever
`gather(prefix)` is nonempty; when `gather(prefix)` is empty the
emitted list is `[""]` instead. -/
theorem propagation_roundtrip (c : CfgArgs) (pfx lib : String)
    (env : String → Option String)
    (henv : env (envVarName lib) = some ((c.propagate pfx).2))
    (hcolon : ∀ s ∈ c.gather pfx, ':' ∉ s.data) :
    (c.gather pfx ≠ [] →
      CfgArgs.output_propagated env lib = (.ok (), c.gather pfx)) ∧
    (c.gather pfx = [] →
      CfgArgs.output_propagated env lib = (.ok (), [""])) := by
  constructor
  · intro hne
    unfold CfgArgs.output_propagated
    rw [henv]
    show (Except.ok (), splitChar ':' (joinChar ':' (c.gather pfx))) = _
    rw [splitChar_joinChar ':' _ hne hcolon]
  · intro he
    unfold CfgArgs.output_propagated
    rw [henv]
    show (Except.ok (), splitChar ':' (joinChar ':' (c.gather pfx))) = _
    rw [he]
    rfl

/-- Witness for the amended C1: one `True` pair, round-tripped through
an environment holding exactly the propagated string. -/
theorem propagation_roundtrip_witness :
    CfgArgs.output_propagated
        (fun n => if n = envVarName "dep" then
          some (((CfgArgs.mk [("A", Value.tristate .True)]).propagate "P").2)
          else none)
        "dep" =
      (.ok (), (CfgArgs.mk [("A", Value.tristate .True)]).gather "P") :=
  (propagation_roundtrip (CfgArgs.mk [("A", Value.tristate .True)]) "P" "dep"
      (fun n => if n = envVarName "dep" then
        some (((CfgArgs.mk [("A", Value.tristate .True)]).propagate "P").2)
        else none)
      (by simp) (by decide)).1 (by decide)
